import Mathlib

/-
  Verification of the pattern-extraction core of epialleleR
  (src/rcpp_extract_patterns.cpp), as a shallow embedding in Lean 4.

  Machine integers are modelled as `Nat`/`Int` with explicit reduction
  modulo 2^32 / 2^64 where the C code computes on `unsigned int` /
  `uint64_t`.  The `double` quantities `min_ctx_freq` and `beta` are
  modelled as exact rationals.  `char` is modelled as signed (the
  package's reference platforms), so a byte xored into the FNV hash is
  sign-extended to 64 bits first.  Exceptions thrown by
  `std::vector::at` are modelled by an `Except` result at the top level.
-/

namespace EpialleleR

/-! ## Machine arithmetic helpers -/

/-- Modulus of C `unsigned int` arithmetic. -/
def u32 : ℕ := 4294967296

/-- Modulus of C `uint64_t` arithmetic. -/
def u64 : ℕ := 18446744073709551616

/-- `a - b` as computed on C `unsigned int` values (wraps modulo `2^32`). -/
def u32sub (a b : ℕ) : ℕ := (a + (u32 - b % u32)) % u32

/-- Reinterpretation of an unsigned 32-bit value as a C `signed int`. -/
def toS32 (a : ℕ) : ℤ := if a < 2147483648 then (a : ℤ) else (a : ℤ) - (u32 : ℤ)

/-- Conversion of a C `int` value to `unsigned int` (wraps modulo `2^32`). -/
def u32ofInt (i : ℤ) : ℕ := (i % (u32 : ℤ)).toNat

/-! ## FNV-1a hashing as implemented by the `fnv_add` macro -/

/-- FNV-1a 64-bit offset basis (`offset_basis` in the source). -/
def offset_basis : ℕ := 14695981039346656037

/-- FNV-1a 64-bit prime (`1099511628211u` in the source). -/
def fnv_prime : ℕ := 1099511628211

/-- Sign extension of one byte to 64 bits.  The C macro `fnv_add` xors
`char` values into a `uint64_t`; on the reference platform `char` is
signed, so a byte `b ≥ 0x80` contributes `b - 256` sign-extended, i.e.
`b + (2^64 - 256)` as an unsigned 64-bit value. -/
def sext8 (b : ℕ) : ℕ := if b < 128 then b else b + (u64 - 256)

/-- One step of the hash update loop in the `fnv_add` macro:
`hash ^= *(pointer+idx); hash *= FNV_prime`, on `uint64_t`. -/
def fnv1 (h b : ℕ) : ℕ := ((h ^^^ sext8 b) * fnv_prime) % u64

/-- The `fnv_add` macro: fold `fnv1` over a byte sequence. -/
def fnv_add (h : ℕ) (bs : List ℕ) : ℕ := bs.foldl fnv1 h

/-- One step of the byte-wise FNV-1a update as the specification words it:
`hash ^= byte; hash *= 1099511628211`, the byte taken as its octet value
with no sign extension.  Used only to compare the source behaviour with
the specified one. -/
def fnv1Spec (h b : ℕ) : ℕ := ((h ^^^ b % 256) * fnv_prime) % u64

/-- Little-endian raw bytes of a 32-bit value, as `reinterpret_cast<const
char*>(&pos)` exposes them on the reference platform. -/
def posBytes (p : ℕ) : List ℕ := [p % 256, p / 256 % 256, p / 65536 % 256, p / 16777216 % 256]

/-- Hexadecimal digit characters, uppercase. -/
def hexDigit (n : ℕ) : Char := "0123456789ABCDEF".toList.getD n '0'

/-- `snprintf(fnv_str, 17, "%.16" PRIX64, fnv)` for values below `2^64`:
the uppercase, zero-padded, 16-hex-digit rendering. -/
def toHex64 (n : ℕ) : String := ⟨(List.range 16).map fun i => hexDigit (n / 16 ^ (15 - i) % 16)⟩

/-! ## Character classification tables -/

/-- Character access into a call/sequence string: `s.c_str()[i]`, with the
NUL terminator for the first out-of-range index. -/
def strAt (s : String) (i : ℕ) : Char := s.toList.getD i (Char.ofNat 0)

/-- The `ctx_map` array: `1` for every character of the caller-supplied
context string, and unconditionally for `A`, `C`, `G`, `T` (the source
marks the four canonical bases valid in the same array it uses for the
scan). -/
def ctx_map (ctx : String) (c : Char) : Bool :=
  ctx.toList.contains c || c == 'A' || c == 'C' || c == 'G' || c == 'T'

/-- The `ctx_to_idx` macro: `((c+2)>>2) & 15`. -/
def ctx_to_idx (c : Char) : ℕ := ((c.toNat + 2) >>> 2) &&& 15

/-- The `base_map` array `{3, 4, 11, 12}`. -/
def base_map : List ℕ := [3, 4, 11, 12]

/-- The `nt_to_idx` macro: `base_map[(c>>1) & 3]`. -/
def nt_to_idx (c : Char) : ℕ := base_map.getD ((c.toNat >>> 1) &&& 3) 0

/-! ## Per-read geometry (Overlap Filter) -/

/-- The geometry inputs of one read against the target window, all on
C `unsigned int` values. -/
structure ReadGeom where
  startx : ℕ
  len : ℕ
  tstart : ℕ
  tend : ℕ
deriving DecidableEq

/-- `end_x = start_x + size_x - 1` (unsigned). -/
def endX (g : ReadGeom) : ℕ := u32sub (g.startx + g.len) 1

/-- `over_start_x = std::max(start_x, target_start)`. -/
def overStart (g : ReadGeom) : ℕ := max g.startx g.tstart

/-- `over_end_x = std::min(end_x, target_end)`. -/
def overEnd (g : ReadGeom) : ℕ := min (endX g) g.tend

/-- The unsigned bits of `over_end_x - over_start_x + 1`. -/
def overlapU (g : ReadGeom) : ℕ := (u32sub (overEnd g) (overStart g) + 1) % u32

/-- `const signed int overlap = over_end_x - over_start_x + 1`. -/
def overlapS (g : ReadGeom) : ℤ := toS32 (overlapU g)

/-- `begin_i = clip ? (over_start_x - start_x) : 0`, clipped case. -/
def beginI (g : ReadGeom) : ℕ := overStart g - g.startx

/-- `begin_i = clip ? (over_start_x - start_x) : 0`, both cases. -/
def beginIC (g : ReadGeom) (clip : Bool) : ℕ := if clip then beginI g else 0

/-- `end_i = clip ? overlap : size_x` (the signed overlap converted back
to `unsigned int` is exactly `overlapU`). -/
def endI (g : ReadGeom) (clip : Bool) : ℕ := if clip then overlapU g else g.len

/-- The index range of the scan loop `for (i = begin_i; i < end_i; i++)`
(with `begin_i = 0` when `clip` is false). -/
def scanIdx (g : ReadGeom) (clip : Bool) : List ℕ :=
  if clip then List.range' (beginI g) (endI g clip - beginI g) else List.range' 0 (endI g clip)

/-- `offset_x = strand[x]==2 ? reverse_offset : 0`. -/
def offOf (ro : ℕ) (strandx : ℤ) : ℕ := if strandx = 2 then ro else 0

/-- `pos = start_x + i - offset_x` (unsigned). -/
def posOf (startx off i : ℕ) : ℕ := u32sub (startx + i) off

/-! ## Pass 1: position counting -/

/-- The positions whose counters one read increments in pass 1, in scan
order: one entry for each scan index whose call character is set in
`ctx_map`. -/
def pass1Positions (ctx : String) (clip : Bool) (ro : ℕ) (g : ReadGeom) (strandx : ℤ)
    (xm : String) : List ℕ :=
  (scanIdx g clip).filterMap fun i =>
    if ctx_map ctx (strAt xm i) then some (posOf g.startx (offOf ro strandx) i) else none

/-! ## Invocation input -/

/-- The arguments of `rcpp_extract_patterns`: the four parallel per-read
columns of the data frame, the two externally owned string tables, and
the scalar parameters. -/
structure Input where
  rname : List ℤ
  strand : List ℤ
  start : List ℤ
  templid : List ℤ
  xms : List String
  seqs : List String
  target_rname : ℕ
  target_start : ℕ
  target_end : ℕ
  min_overlap : ℤ
  ctx : String
  min_ctx_freq : ℚ
  clip : Bool
  reverse_offset : ℕ
  hlght : List ℕ

/-- `xm->at(templid[x])`, ignoring the out-of-range throw (tracked
separately by `pass1Errors`/`pass2Errors`). -/
def tidStr (tbl : List String) (tid : ℤ) : String :=
  if 0 ≤ tid then tbl.getD tid.toNat "" else ""

/-- Whether `tbl.at(tid)` succeeds. -/
def tidOK (tbl : List String) (tid : ℤ) : Bool :=
  decide (0 ≤ tid) && decide (tid.toNat < tbl.length)

def Input.xmOf (inp : Input) (x : ℕ) : String := tidStr inp.xms (inp.templid.getD x 0)

def Input.seqOf (inp : Input) (x : ℕ) : String := tidStr inp.seqs (inp.templid.getD x 0)

def Input.geomOf (inp : Input) (x : ℕ) : ReadGeom :=
  { startx := u32ofInt (inp.start.getD x 0), len := (inp.xmOf x).length,
    tstart := inp.target_start, tend := inp.target_end }

def Input.strandOf (inp : Input) (x : ℕ) : ℤ := inp.strand.getD x 0

/-- `rname[x]==(int)target_rname`. -/
def Input.onTarget (inp : Input) (x : ℕ) : Bool :=
  inp.rname.getD x 0 == toS32 inp.target_rname

/-- `overlap >= min_overlap`. -/
def Input.qual (inp : Input) (x : ℕ) : Bool :=
  decide (inp.min_overlap ≤ overlapS (inp.geomOf x))

/-- Indices of the reads on the target chromosome, in scan order. -/
def targetReads (inp : Input) : List ℕ :=
  (List.range inp.rname.length).filter inp.onTarget

/-- Indices of the reads that pass the Overlap Filter, in scan order. -/
def qualReads (inp : Input) : List ℕ := (targetReads inp).filter inp.qual

/-- Pass-1 increments contributed by read `x`. -/
def posnsOf (inp : Input) (x : ℕ) : List ℕ :=
  pass1Positions inp.ctx inp.clip inp.reverse_offset (inp.geomOf x) (inp.strandOf x) (inp.xmOf x)

/-- One iteration of the pass-1 loop body: on a target-chromosome read
that passes the Overlap Filter, append its increments and do `npat++`. -/
def pass1Upd (inp : Input) (acc : List ℕ × ℕ) (x : ℕ) : List ℕ × ℕ :=
  if inp.onTarget x then
    if inp.qual x then (acc.1 ++ posnsOf inp x, acc.2 + 1) else acc
  else acc

/-- The pass-1 loop over read indices, threading the increment list and
the `npat` counter. -/
def pass1Loop (inp : Input) : List ℕ → List ℕ × ℕ → List ℕ × ℕ
  | [], acc => acc
  | x :: xs, acc => pass1Loop inp xs (pass1Upd inp acc x)

/-- The state after pass 1: all counter increments (the content of
`pos_map`) and the candidate-read count `npat`. -/
def pass1Out (inp : Input) : List ℕ × ℕ := pass1Loop inp (List.range inp.rname.length) ([], 0)

/-- All pass-1 increments of the invocation. -/
def allIncs (inp : Input) : List ℕ := (pass1Out inp).1

/-- `npat` after pass 1: the frequency denominator. -/
def npat1 (inp : Input) : ℕ := (pass1Out inp).2

/-- `pos_map[pos]`: how many pass-1 increments hit `pos`. -/
def freqOf (inp : Input) (pos : ℕ) : ℕ := (allIncs inp).count pos

/-- The key set of `pos_map` (each position present iff incremented at
least once). -/
def posKeys (inp : Input) : List ℕ := (allIncs inp).dedup

/-- Membership in `pat_map`: position present in `pos_map`, frequency at
least `min_ctx_freq`, and not a highlighted position. -/
def selectedB (inp : Input) (pos : ℕ) : Bool :=
  (posKeys inp).contains pos &&
    decide (inp.min_ctx_freq ≤ (freqOf inp pos : ℚ) / (npat1 inp : ℚ)) &&
    !(inp.hlght.contains pos)

/-! ## Pass 2: pattern extraction -/

/-- The in-context calls of one read at selected positions, in scan
order: `(pos, call character)` for each scan index whose character is in
`ctx_map` and whose position is a `pat_map` key. -/
def callsOf (ctx : String) (clip : Bool) (ro : ℕ) (g : ReadGeom) (strandx : ℤ)
    (xm : String) (sel : ℕ → Bool) : List (ℕ × Char) :=
  (scanIdx g clip).filterMap fun i =>
    if ctx_map ctx (strAt xm i) && sel (posOf g.startx (offOf ro strandx) i) then
      some (posOf g.startx (offOf ro strandx) i, strAt xm i)
    else none

/-- The two `fnv_add` macro invocations for one recorded item: the four
raw bytes of the 32-bit position, then the single character byte. -/
def fnvStep (h : ℕ) (pc : ℕ × Char) : ℕ := fnv_add (fnv_add h (posBytes pc.1)) [pc.2.toNat]

/-- The recorded highlights of one read, in highlight-list order:
`(coordinate, sequence character)` for each highlight coordinate whose
offset into the read falls in the scan range and whose sequence
character is set in `ctx_map`. -/
def hlCallsOf (ctx : String) (clip : Bool) (g : ReadGeom) (hl : List ℕ)
    (sq : String) : List (ℕ × Char) :=
  hl.filterMap fun hp0 =>
    if (decide (beginIC g clip ≤ u32sub hp0 g.startx) &&
          decide (u32sub hp0 g.startx < endI g clip))
        && ctx_map ctx (strAt sq (u32sub hp0 g.startx)) then
      some (hp0, strAt sq (u32sub hp0 g.startx))
    else none

/-- `meth`: among the recorded calls, those whose category index has the
bit of value 8 clear (`meth += !(base & 8)`). -/
def methOf (calls : List (ℕ × Char)) : ℕ :=
  (calls.filter fun pc => ctx_to_idx pc.2 &&& 8 == 0).length

/-- One emitted pattern record. -/
structure PatternRec where
  strand : ℤ
  pstart : ℕ
  pend : ℕ
  nbase : ℕ
  beta : ℚ
  pattern : String
  rows : List (ℕ × ℕ)
  hls : List (ℕ × ℕ)
deriving DecidableEq

/-- The pass-2 body for one qualifying read: hash the in-context calls at
selected positions; if the hash moved off the basis, record the
highlights, hash them, and emit the pattern record; otherwise emit
nothing. -/
def pass2Read (ctx : String) (clip : Bool) (ro : ℕ) (g : ReadGeom) (strandx : ℤ)
    (xm : String) (sq : String) (hl : List ℕ) (sel : ℕ → Bool) : Option PatternRec :=
  if (callsOf ctx clip ro g strandx xm sel).foldl fnvStep offset_basis = offset_basis then none
  else some
    { strand := strandx
      pstart := g.startx + beginIC g clip
      pend := g.startx + endI g clip - 1
      nbase := (callsOf ctx clip ro g strandx xm sel).length
      beta := (methOf (callsOf ctx clip ro g strandx xm sel) : ℚ) /
        ((callsOf ctx clip ro g strandx xm sel).length : ℚ)
      pattern := toHex64 ((hlCallsOf ctx clip g hl sq).foldl fnvStep
        ((callsOf ctx clip ro g strandx xm sel).foldl fnvStep offset_basis))
      rows := (callsOf ctx clip ro g strandx xm sel).map fun pc => (pc.1, ctx_to_idx pc.2)
      hls := (hlCallsOf ctx clip g hl sq).map fun pc => (pc.1, nt_to_idx pc.2) }

/-- The pass-2 result for read `x` of the invocation. -/
def emitOf (inp : Input) (x : ℕ) : Option PatternRec :=
  pass2Read inp.ctx inp.clip inp.reverse_offset (inp.geomOf x) (inp.strandOf x)
    (inp.xmOf x) (inp.seqOf x) inp.hlght (selectedB inp)

/-- All emitted patterns of the invocation, in scan order. -/
def emittedPatterns (inp : Input) : List PatternRec := (qualReads inp).filterMap (emitOf inp)

/-- Whether pass 1 throws: some target-chromosome read's `templid` is out
of range for the XM table (`xm->at` throws at that read). -/
def pass1Errors (inp : Input) : Bool :=
  (targetReads inp).any fun x => !tidOK inp.xms (inp.templid.getD x 0)

/-- Whether pass 2 throws: some emitting read's `templid` is out of range
for the SEQ table (`seq->at` is only reached when the hash moved). -/
def pass2Errors (inp : Input) : Bool :=
  (qualReads inp).any fun x => (emitOf inp x).isSome && !tidOK inp.seqs (inp.templid.getD x 0)

/-- The observable result: the canonical empty data frame, or a table of
pattern records. -/
inductive DF where
  | empty : DF
  | table : List PatternRec → DF
deriving DecidableEq

/-- The whole invocation of `rcpp_extract_patterns`: an `at()` throw
surfaces as an error; otherwise the empty data frame when no pattern was
emitted, else the assembled table. -/
def rcpp_extract_patterns (inp : Input) : Except Unit DF :=
  if pass1Errors inp then .error ()
  else if pass2Errors inp then .error ()
  else if emittedPatterns inp = [] then .ok .empty
  else .ok (.table (emittedPatterns inp))

/-! ## Specification-side byte sequences -/

/-- The byte sequence the specification says is hashed for a list of
recorded items: for each item, the raw bytes of the position integer
followed by the single character byte. -/
def bytesOfCalls (l : List (ℕ × Char)) : List ℕ :=
  l.flatMap fun pc => posBytes pc.1 ++ [pc.2.toNat]

/-- A placeholder pattern record (used only to name the record inside an
`Option` in closed witness statements). -/
def dummyRec : PatternRec := ⟨0, 0, 0, 0, 0, "", [], []⟩

/-! ## Concrete inputs used by counterexamples and witnesses -/

/-- One read whose call string is `"A"` while the caller context is
`"zZ"`: pass 1 counts the `A` anyway. -/
def cInp2 : Input :=
  { rname := [1], strand := [1], start := [100], templid := [0], xms := ["A"], seqs := ["A"],
    target_rname := 1, target_start := 100, target_end := 100, min_overlap := 1,
    ctx := "zZ", min_ctx_freq := 1, clip := false, reverse_offset := 0, hlght := [] }

/-- One read at position 200 (a position byte `0xC8 ≥ 0x80`) whose single
call `Z` is at a selected position, so one pattern is emitted. -/
def gC3 : ReadGeom := ⟨200, 1, 200, 200⟩

/-- Selection predicate for the C3 counterexample read: position 200. -/
def selC3 : ℕ → Bool := fun p => p == 200

/-- Geometry for the highlight counterexample: read `[100,103]`, target
window `[100,101]`, so the clipped scan range is `[0,2)`. -/
def g4 : ReadGeom := ⟨100, 4, 100, 101⟩

/-- Geometry of a read starting before the target: read `[100,109]`,
target `[105,107]`. -/
def g5 : ReadGeom := ⟨100, 10, 105, 107⟩

/-- Geometry for the C5 witness: read `[100,102]` starting exactly at
the target start. -/
def gW5 : ReadGeom := ⟨100, 3, 100, 102⟩

/-- A malformed target window (`end < start`) with one valid read. -/
def cInp8a : Input :=
  { rname := [1], strand := [1], start := [100], templid := [0], xms := ["Z"], seqs := ["A"],
    target_rname := 1, target_start := 10, target_end := 5, min_overlap := 1,
    ctx := "zZ", min_ctx_freq := 1, clip := false, reverse_offset := 0, hlght := [] }

/-- An out-of-range `templid` on a read that is not on the target
chromosome, so the string table is never accessed. -/
def cInp8b : Input :=
  { rname := [2], strand := [1], start := [100], templid := [5], xms := ["Z"], seqs := ["A"],
    target_rname := 1, target_start := 100, target_end := 100, min_overlap := 1,
    ctx := "zZ", min_ctx_freq := 1, clip := false, reverse_offset := 0, hlght := [] }

/-- An input with no reads at all. -/
def cInp8w : Input :=
  { rname := [], strand := [], start := [], templid := [], xms := [], seqs := [],
    target_rname := 1, target_start := 100, target_end := 100, min_overlap := 1,
    ctx := "zZ", min_ctx_freq := 1, clip := false, reverse_offset := 0, hlght := [] }

/-- An input whose single read lies on another chromosome. -/
def cInp9 : Input :=
  { rname := [2], strand := [1], start := [100], templid := [0], xms := ["Z"], seqs := ["A"],
    target_rname := 1, target_start := 100, target_end := 100, min_overlap := 1,
    ctx := "zZ", min_ctx_freq := 1, clip := false, reverse_offset := 0, hlght := [] }

/-- One read with one selected in-context call (for the C10 witness). -/
def cInp10 : Input :=
  { rname := [1], strand := [1], start := [300], templid := [0], xms := ["z"], seqs := ["C"],
    target_rname := 1, target_start := 300, target_end := 300, min_overlap := 1,
    ctx := "zZ", min_ctx_freq := 1, clip := false, reverse_offset := 0, hlght := [] }

/-- Geometry shared by several witnesses: read `[100,102]` fully inside
the target `[100,102]`. -/
def gW3 : ReadGeom := ⟨100, 3, 100, 102⟩

/-- Selection predicate for the witnesses on `gW3`: positions 100, 101. -/
def selW3 : ℕ → Bool := fun p => p == 100 || p == 101

/-- The record emitted by `pass2Read` on the `gW3` witness input. -/
def recW3 : PatternRec :=
  (pass2Read "zZ" false 0 gW3 1 "ZzH" "ACG" [102] selW3).getD dummyRec

/-- Geometry for the C2 witness: read `[100,100]`, target `[100,100]`. -/
def gW2 : ReadGeom := ⟨100, 1, 100, 100⟩

/-- Geometry for the C6 witness: read `[100,101]`, no context call. -/
def g6 : ReadGeom := ⟨100, 2, 100, 101⟩

/-- Input arguments for the C7 witness (same shape as the C3 witness but
separate, one emitted record with two calls). -/
def gW7 : ReadGeom := ⟨100, 3, 100, 102⟩

def selW7 : ℕ → Bool := fun p => p == 100 || p == 101

def recW7 : PatternRec :=
  (pass2Read "zZ" false 0 gW7 1 "ZzH" "ACG" [102] selW7).getD dummyRec

/-- Arguments for the C4 witness. -/
def gW4 : ReadGeom := ⟨100, 3, 100, 102⟩

def selW4 : ℕ → Bool := fun p => p == 100 || p == 101

def recW4 : PatternRec :=
  (pass2Read "zZ" false 0 gW4 1 "ZzH" "ACG" [102] selW4).getD dummyRec

/-! ## Pass-1 structure lemmas -/

theorem pass1Loop_spec (inp : Input) (xs : List ℕ) (acc : List ℕ × ℕ) :
    pass1Loop inp xs acc =
      (acc.1 ++ (xs.filter fun x => inp.onTarget x && inp.qual x).flatMap (posnsOf inp),
       acc.2 + (xs.filter fun x => inp.onTarget x && inp.qual x).length) := by
  induction xs generalizing acc with
  | nil => simp [pass1Loop]
  | cons x xs ih =>
    simp only [pass1Loop, pass1Upd]
    by_cases h1 : inp.onTarget x = true
    · by_cases h2 : inp.qual x = true
      · rw [if_pos h1, if_pos h2, ih]
        simp [List.filter_cons, h1, h2]
        omega
      · rw [if_pos h1, if_neg h2, ih]
        simp [List.filter_cons, h1, h2]
    · rw [if_neg h1, ih]
      simp [List.filter_cons, h1]

theorem qualReads_eq (inp : Input) :
    qualReads inp =
      (List.range inp.rname.length).filter fun x => inp.onTarget x && inp.qual x := by
  simp only [qualReads, targetReads, List.filter_filter]
  exact List.filter_congr fun x _ => Bool.and_comm _ _

theorem npat1_eq (inp : Input) : npat1 inp = (qualReads inp).length := by
  simp [npat1, pass1Out, pass1Loop_spec, qualReads_eq]

theorem allIncs_eq (inp : Input) :
    allIncs inp = (qualReads inp).flatMap (posnsOf inp) := by
  simp [allIncs, pass1Out, pass1Loop_spec, qualReads_eq]

/-! ## Pass-2 structure lemmas -/

theorem pass2Read_eq_some {ctx : String} {clip : Bool} {ro : ℕ} {g : ReadGeom} {strandx : ℤ}
    {xm sq : String} {hl : List ℕ} {sel : ℕ → Bool} {rec : PatternRec}
    (h : pass2Read ctx clip ro g strandx xm sq hl sel = some rec) :
    (callsOf ctx clip ro g strandx xm sel).foldl fnvStep offset_basis ≠ offset_basis ∧
    rec =
      { strand := strandx
        pstart := g.startx + beginIC g clip
        pend := g.startx + endI g clip - 1
        nbase := (callsOf ctx clip ro g strandx xm sel).length
        beta := (methOf (callsOf ctx clip ro g strandx xm sel) : ℚ) /
          ((callsOf ctx clip ro g strandx xm sel).length : ℚ)
        pattern := toHex64 ((hlCallsOf ctx clip g hl sq).foldl fnvStep
          ((callsOf ctx clip ro g strandx xm sel).foldl fnvStep offset_basis))
        rows := (callsOf ctx clip ro g strandx xm sel).map fun pc => (pc.1, ctx_to_idx pc.2)
        hls := (hlCallsOf ctx clip g hl sq).map fun pc => (pc.1, nt_to_idx pc.2) } := by
  rw [pass2Read] at h
  split at h
  · exact absurd h (by simp)
  · next hne => exact ⟨hne, (Option.some.inj h).symm⟩

theorem pass2Read_nbase {ctx : String} {clip : Bool} {ro : ℕ} {g : ReadGeom} {strandx : ℤ}
    {xm sq : String} {hl : List ℕ} {sel : ℕ → Bool} {rec : PatternRec}
    (h : pass2Read ctx clip ro g strandx xm sq hl sel = some rec) :
    1 ≤ rec.nbase ∧ rec.nbase = (callsOf ctx clip ro g strandx xm sel).length := by
  obtain ⟨hne, hrec⟩ := pass2Read_eq_some h
  subst hrec
  refine ⟨?_, rfl⟩
  cases hcs : callsOf ctx clip ro g strandx xm sel with
  | nil => exact absurd (by rw [hcs]; rfl) hne
  | cons a l => simp [hcs]

/-! ## Unsigned arithmetic lemmas -/

theorem contains_true_iff {l : List ℕ} {a : ℕ} : l.contains a = true ↔ a ∈ l := by simp

theorem contains_char_iff {l : List Char} {a : Char} : l.contains a = true ↔ a ∈ l := by simp

theorem u32sub_of_le {a b : ℕ} (h : b ≤ a) (ha : a < u32) : u32sub a b = a - b := by
  simp only [u32sub, u32] at *
  omega

/-! ## Claim theorems -/

/-- C1: for every invocation, the selected-position set (the key set of
`pat_map`) equals the set of frequency-map positions `pos` with
`frequency_map[pos] / N ≥ min_ctx_freq` minus the highlight-list
positions, where the denominator `N` is the number of reads that passed
the Overlap Filter in pass 1 — counted once per qualifying read whether
or not it contributed any in-context base, not the number of emitted
patterns. -/
theorem c1_selected_position_set (inp : Input) :
    npat1 inp = (qualReads inp).length ∧
    ∀ pos : ℕ, selectedB inp pos = true ↔
      0 < freqOf inp pos ∧
      inp.min_ctx_freq ≤ (freqOf inp pos : ℚ) / ((qualReads inp).length : ℚ) ∧
      pos ∉ inp.hlght := by
  refine ⟨npat1_eq inp, fun pos => ?_⟩
  have h1 : (posKeys inp).contains pos = true ↔ 0 < freqOf inp pos := by
    rw [contains_true_iff, posKeys, List.mem_dedup, freqOf, List.count_pos_iff]
  have h2 : (!inp.hlght.contains pos) = true ↔ pos ∉ inp.hlght := by simp
  rw [selectedB, Bool.and_eq_true, Bool.and_eq_true, npat1_eq, h1, h2, decide_eq_true_iff]
  tauto

/-- C1 witness: the selection characterisation at a concrete invocation
and position. -/
theorem c1_selected_position_set_witness :
    npat1 cInp10 = (qualReads cInp10).length ∧
    (selectedB cInp10 300 = true ↔
      0 < freqOf cInp10 300 ∧
      cInp10.min_ctx_freq ≤ (freqOf cInp10 300 : ℚ) / ((qualReads cInp10).length : ℚ) ∧
      300 ∉ cInp10.hlght) :=
  ⟨(c1_selected_position_set cInp10).1, (c1_selected_position_set cInp10).2 300⟩

/-- C10: every division the invocation evaluates has a nonzero
denominator: a frequency-map entry exists only when at least one read
qualified (`npat ≥ 1`), and every emitted pattern has `nbase ≥ 1`
because its hash moved off the offset basis. -/
theorem c10_nonzero_denominators (inp : Input) :
    (∀ pos : ℕ, 0 < freqOf inp pos → 1 ≤ npat1 inp) ∧
    ∀ rec ∈ emittedPatterns inp, 1 ≤ rec.nbase := by
  constructor
  · intro pos h
    rw [freqOf, List.count_pos_iff, allIncs_eq, List.mem_flatMap] at h
    obtain ⟨x, hx, -⟩ := h
    rw [npat1_eq]
    exact List.length_pos.mpr (List.ne_nil_of_mem hx)
  · intro rec hrec
    obtain ⟨x, -, hemit⟩ := List.mem_filterMap.mp hrec
    exact (pass2Read_nbase hemit).1

/-- C10 witness: the theorem applied to a concrete invocation with one
qualifying read carrying one in-context call. -/
theorem c10_nonzero_denominators_witness : 0 < freqOf cInp10 300 ∧ 1 ≤ npat1 cInp10 :=
  ⟨by decide, (c10_nonzero_denominators cInp10).1 300 (by decide)⟩

/-- C6: a qualifying read with zero in-context bases in its scan range
leaves the hash at the offset basis and contributes no pattern record,
no per-position row and no highlight entries (the pass-2 body yields
nothing). -/
theorem c6_all_or_nothing (ctx : String) (clip : Bool) (ro : ℕ) (g : ReadGeom) (strandx : ℤ)
    (xm sq : String) (hl : List ℕ) (sel : ℕ → Bool)
    (h : ∀ i ∈ scanIdx g clip, ctx_map ctx (strAt xm i) = false) :
    pass2Read ctx clip ro g strandx xm sq hl sel = none ∧
    (callsOf ctx clip ro g strandx xm sel).foldl fnvStep offset_basis = offset_basis := by
  have hc : callsOf ctx clip ro g strandx xm sel = [] := by
    rw [callsOf, List.filterMap_eq_nil_iff]
    intro i hi
    rw [h i hi]
    simp
  rw [pass2Read, hc]
  exact ⟨by simp, rfl⟩

/-- C6 witness: a read whose call string `"HH"` has no character in the
context map of `"zZ"`, with a highlight coordinate inside its span. -/
theorem c6_all_or_nothing_witness :
    (∀ i ∈ scanIdx g6 false, ctx_map "zZ" (strAt "HH" i) = false) ∧
    (pass2Read "zZ" false 0 g6 1 "HH" "AA" [100] (fun _ => true) = none ∧
      (callsOf "zZ" false 0 g6 1 "HH" (fun _ => true)).foldl fnvStep offset_basis =
        offset_basis) :=
  ⟨by decide, c6_all_or_nothing "zZ" false 0 g6 1 "HH" "AA" [100] (fun _ => true) (by decide)⟩

/-- C7: every emitted pattern has `nbase ≥ 1`, `nbase` the number of
in-context calls at selected positions, and `beta` exactly the quotient
of `meth` (the calls whose category index has the bit of value 8 clear)
by `nbase`. -/
theorem c7_beta_exact (ctx : String) (clip : Bool) (ro : ℕ) (g : ReadGeom) (strandx : ℤ)
    (xm sq : String) (hl : List ℕ) (sel : ℕ → Bool) (rec : PatternRec)
    (h : pass2Read ctx clip ro g strandx xm sq hl sel = some rec) :
    1 ≤ rec.nbase ∧
    rec.nbase = (callsOf ctx clip ro g strandx xm sel).length ∧
    rec.beta = (methOf (callsOf ctx clip ro g strandx xm sel) : ℚ) / (rec.nbase : ℚ) ∧
    rec.beta * (rec.nbase : ℚ) = (methOf (callsOf ctx clip ro g strandx xm sel) : ℚ) := by
  obtain ⟨h1, h2⟩ := pass2Read_nbase h
  obtain ⟨-, hrec⟩ := pass2Read_eq_some h
  refine ⟨h1, h2, ?_, ?_⟩
  · rw [hrec]
  · rw [hrec]
    have hne : ((callsOf ctx clip ro g strandx xm sel).length : ℚ) ≠ 0 := by
      rw [← h2]
      exact_mod_cast Nat.one_le_iff_ne_zero.mp h1
    simp only [h2] at hne ⊢
    exact div_mul_cancel₀ _ hne

/-- C7 witness: a concrete emitted record with two calls, one
methylated, so `nbase = 2` and `beta = 1/2`. -/
theorem c7_beta_exact_witness :
    pass2Read "zZ" false 0 gW7 1 "ZzH" "ACG" [102] selW7 = some recW7 ∧
    (1 ≤ recW7.nbase ∧
      recW7.nbase = (callsOf "zZ" false 0 gW7 1 "ZzH" selW7).length ∧
      recW7.beta = (methOf (callsOf "zZ" false 0 gW7 1 "ZzH" selW7) : ℚ) / (recW7.nbase : ℚ) ∧
      recW7.beta * (recW7.nbase : ℚ) = (methOf (callsOf "zZ" false 0 gW7 1 "ZzH" selW7) : ℚ)) :=
  ⟨rfl, c7_beta_exact "zZ" false 0 gW7 1 "ZzH" "ACG" [102] selW7 recW7 rfl⟩

/-- C9: an invocation that emits zero patterns — in particular when no
read lies on the target chromosome or none passes the Overlap Filter —
returns the canonical empty data frame as a success, never an error
(granted pass 1 finished, i.e. no string-table access threw). -/
theorem c9_empty_table_success (inp : Input) (h1 : pass1Errors inp = false)
    (h2 : emittedPatterns inp = []) :
    rcpp_extract_patterns inp = .ok DF.empty := by
  have h3 : pass2Errors inp = false := by
    have hall : ∀ x ∈ qualReads inp, emitOf inp x = none :=
      List.filterMap_eq_nil_iff.mp h2
    rw [pass2Errors, List.any_eq_false]
    intro x hx
    rw [hall x hx]
    simp
  rw [rcpp_extract_patterns, h1, h3, if_neg (by simp), if_neg (by simp), if_pos h2]

/-- C9 witness: the single read lies on another chromosome, so nothing
is scanned and the empty table is returned. -/
theorem c9_empty_table_success_witness :
    (pass1Errors cInp9 = false ∧ emittedPatterns cInp9 = []) ∧
    rcpp_extract_patterns cInp9 = .ok DF.empty :=
  ⟨⟨by decide, by decide⟩, c9_empty_table_success cInp9 (by decide) (by decide)⟩

/-- C8 counterexample: the claim that invalid input fails fast before any
scanning is false — a malformed target window (`end < start`) is not
rejected (the invocation succeeds with the empty table), and an
out-of-range `template_ref` on a read off the target chromosome is never
even noticed (the invocation succeeds). -/
theorem c8_fail_fast_counterexample :
    cInp8a.target_end < cInp8a.target_start ∧
    rcpp_extract_patterns cInp8a = .ok DF.empty ∧
    tidOK cInp8b.xms (cInp8b.templid.getD 0 0) = false ∧
    rcpp_extract_patterns cInp8b = .ok DF.empty :=
  ⟨by decide, by rfl, by decide, by rfl⟩

/-- C8 amended: no up-front validation is performed. Whenever every
target-chromosome read has a `template_ref` valid for both string
tables, the invocation returns a success — malformed target windows and
other invalid inputs are not rejected; an out-of-range `template_ref`
surfaces only if such a read is reached during scanning. -/
theorem c8_no_fail_fast (inp : Input)
    (h : ∀ x ∈ targetReads inp, tidOK inp.xms (inp.templid.getD x 0) = true ∧
      tidOK inp.seqs (inp.templid.getD x 0) = true) :
    ∃ r : DF, rcpp_extract_patterns inp = .ok r := by
  have h1 : pass1Errors inp = false := by
    rw [pass1Errors, List.any_eq_false]
    intro x hx
    rw [(h x hx).1]
    simp
  have h2 : pass2Errors inp = false := by
    rw [pass2Errors, List.any_eq_false]
    intro x hx
    have hxt : x ∈ targetReads inp := List.mem_of_mem_filter hx
    rw [(h x hxt).2]
    simp
  rw [rcpp_extract_patterns, h1, h2, if_neg (by simp), if_neg (by simp)]
  by_cases he : emittedPatterns inp = []
  · exact ⟨DF.empty, by rw [if_pos he]⟩
  · exact ⟨DF.table (emittedPatterns inp), by rw [if_neg he]⟩

/-- C8 amended witness: the empty invocation (no reads) trivially
satisfies the hypothesis and succeeds. -/
theorem c8_no_fail_fast_witness :
    (∀ x ∈ targetReads cInp8w, tidOK cInp8w.xms (cInp8w.templid.getD x 0) = true ∧
      tidOK cInp8w.seqs (cInp8w.templid.getD x 0) = true) ∧
    ∃ r : DF, rcpp_extract_patterns cInp8w = .ok r :=
  ⟨by decide, c8_no_fail_fast cInp8w (by decide)⟩

/-- Any scan index is below the loop bound `end_i`. -/
theorem mem_scanIdx {g : ReadGeom} {clip : Bool} {i : ℕ} (h : i ∈ scanIdx g clip) :
    i < endI g clip := by
  rw [scanIdx] at h
  split at h
  · have := List.mem_range'_1.mp h
    omega
  · have := List.mem_range'_1.mp h
    omega

/-- C2 counterexample: with caller context `"zZ"`, a call character `A`
(not in the caller-supplied set) is nevertheless counted by pass 1: the
frequency map entry at its position is incremented, because the source
marks `A`, `C`, `G`, `T` in the same `ctx_map` array used by the scan. -/
theorem c2_canonical_bases_counted :
    cInp2.ctx = "zZ" ∧
    "zZ".toList.contains 'A' = false ∧
    strAt (cInp2.xmOf 0) 0 = 'A' ∧
    scanIdx (cInp2.geomOf 0) cInp2.clip = [0] ∧
    posOf (cInp2.geomOf 0).startx 0 0 = 100 ∧
    freqOf cInp2 100 = 1 := by decide

/-- C2 amended: in pass 1 the frequency map entry at
`pos = start + i - offset` is incremented iff the call character at
index `i` is set in the context map — that is, iff it belongs to the
caller-supplied context set or is one of the four canonical bases
`A`, `C`, `G`, `T`, which the implementation marks valid in the same
map it scans with (not only for highlight extraction). -/
theorem c2_context_map_counting (ctx : String) (clip : Bool) (ro : ℕ) (g : ReadGeom)
    (strandx : ℤ) (xm : String) (i : ℕ)
    (hoff : offOf ro strandx ≤ g.startx)
    (hbound : g.startx + endI g clip ≤ u32)
    (hi : i ∈ scanIdx g clip) :
    (posOf g.startx (offOf ro strandx) i ∈ pass1Positions ctx clip ro g strandx xm ↔
      ctx_map ctx (strAt xm i) = true) ∧
    ∀ c : Char, ctx_map ctx c = true ↔
      (c ∈ ctx.toList ∨ c = 'A' ∨ c = 'C' ∨ c = 'G' ∨ c = 'T') := by
  have hposOf : ∀ j, j < endI g clip →
      posOf g.startx (offOf ro strandx) j = g.startx + j - offOf ro strandx := by
    intro j hj
    rw [posOf]
    exact u32sub_of_le (by omega) (by omega)
  constructor
  · constructor
    · intro hmem
      have hm2 : ∃ j ∈ scanIdx g clip, ctx_map ctx (strAt xm j) = true ∧
          posOf g.startx (offOf ro strandx) j = posOf g.startx (offOf ro strandx) i := by
        simpa [pass1Positions] using hmem
      obtain ⟨j, hj, hcm, hpe⟩ := hm2
      have hji : j = i := by
        have e1 := hposOf j (mem_scanIdx hj)
        have e2 := hposOf i (mem_scanIdx hi)
        rw [e1, e2] at hpe
        omega
      rwa [hji] at hcm
    · intro hcm
      rw [pass1Positions]
      exact List.mem_filterMap.mpr ⟨i, hi, by rw [if_pos hcm]⟩
  · intro c
    simp only [ctx_map, Bool.or_eq_true, beq_iff_eq, contains_char_iff]
    tauto

/-- C2 amended witness: a single-base read on the target window, the
call `A` at scan index 0. -/
theorem c2_context_map_counting_witness :
    (offOf 0 1 ≤ gW2.startx ∧ gW2.startx + endI gW2 false ≤ u32 ∧ 0 ∈ scanIdx gW2 false) ∧
    ((posOf gW2.startx (offOf 0 1) 0 ∈ pass1Positions "zZ" false 0 gW2 1 "A" ↔
        ctx_map "zZ" (strAt "A" 0) = true) ∧
      ∀ c : Char, ctx_map "zZ" c = true ↔
        (c ∈ "zZ".toList ∨ c = 'A' ∨ c = 'C' ∨ c = 'G' ∨ c = 'T')) :=
  ⟨⟨by decide, by decide, by decide⟩,
    c2_context_map_counting "zZ" false 0 gW2 1 "A" 0 (by decide) (by decide) (by decide)⟩

/-- Membership in the recorded-highlight list of one read. -/
theorem mem_hlCallsOf {ctx : String} {clip : Bool} {g : ReadGeom} {hl : List ℕ}
    {sq : String} {p : ℕ} {c : Char} :
    (p, c) ∈ hlCallsOf ctx clip g hl sq ↔
      p ∈ hl ∧ beginIC g clip ≤ u32sub p g.startx ∧ u32sub p g.startx < endI g clip ∧
      ctx_map ctx (strAt sq (u32sub p g.startx)) = true ∧
      c = strAt sq (u32sub p g.startx) := by
  simp only [hlCallsOf, List.mem_filterMap, Option.ite_none_right_eq_some, Option.some.injEq,
    Bool.and_eq_true, decide_eq_true_iff, Prod.mk.injEq]
  constructor
  · rintro ⟨hp0, hmem, ⟨⟨h1, h2⟩, h3⟩, he1, he2⟩
    subst he1
    exact ⟨hmem, h1, h2, h3, he2.symm⟩
  · rintro ⟨hmem, h1, h2, h3, h4⟩
    exact ⟨p, hmem, ⟨⟨h1, h2⟩, h3⟩, rfl, h4.symm⟩

/-- C4 counterexample: read `[100,103]` clipped to target `[100,101]`
(scan range `[0,2)`), highlights at 101 and 103.  Coordinate 103 lies
inside the read's span with sequence base `A`, but is NOT recorded
(outside the clipped scan range); coordinate 101 has sequence character
`z` — not one of `A`, `C`, `G`, `T` — yet IS recorded, because the
caller context `"zZ"` is part of the same `ctx_map`. -/
theorem c4_highlight_span_counterexample :
    ((pass2Read "zZ" true 0 g4 1 "ZZxx" "AzGA" [101, 103] fun p => p == 100).map
        fun r => r.hls) = some [(101, 4)] ∧
    g4.startx = 100 ∧ g4.startx + g4.len - 1 = 103 ∧
    strAt "AzGA" 3 = 'A' ∧
    strAt "AzGA" 1 = 'z' ∧ ¬('z' ∈ (['A', 'C', 'G', 'T'] : List Char)) := by
  refine ⟨by rfl, by decide, by decide, by decide, by decide, by decide⟩

/-- C4 amended: in step 4, for every read whose hash differs from the
offset basis, a highlight coordinate is recorded and hashed iff its
offset into the read falls inside the read's SCAN RANGE
`[begin_i, end_i)` (the clipped range when `clip` is true, the whole
read otherwise) and the sequence character there is set in the context
map — the four canonical bases `A`, `C`, `G`, `T` always, plus any
caller-supplied context character. -/
theorem c4_highlight_record_iff (ctx : String) (clip : Bool) (ro : ℕ) (g : ReadGeom)
    (strandx : ℤ) (xm sq : String) (hl : List ℕ) (sel : ℕ → Bool) (rec : PatternRec)
    (h : pass2Read ctx clip ro g strandx xm sq hl sel = some rec) (p b : ℕ) :
    (p, b) ∈ rec.hls ↔
      p ∈ hl ∧ beginIC g clip ≤ u32sub p g.startx ∧ u32sub p g.startx < endI g clip ∧
      ctx_map ctx (strAt sq (u32sub p g.startx)) = true ∧
      b = nt_to_idx (strAt sq (u32sub p g.startx)) := by
  obtain ⟨-, hrec⟩ := pass2Read_eq_some h
  subst hrec
  show (p, b) ∈ (hlCallsOf ctx clip g hl sq).map (fun pc => (pc.1, nt_to_idx pc.2)) ↔ _
  rw [List.mem_map]
  constructor
  · rintro ⟨⟨p0, c0⟩, hpc, he⟩
    obtain ⟨he1, he2⟩ := Prod.mk.injEq .. ▸ he
    subst he1
    obtain ⟨hmem, h1, h2, h3, h4⟩ := mem_hlCallsOf.mp hpc
    exact ⟨hmem, h1, h2, h3, by rw [← he2, h4]⟩
  · rintro ⟨hmem, h1, h2, h3, h4⟩
    exact ⟨(p, strAt sq (u32sub p g.startx)),
      mem_hlCallsOf.mpr ⟨hmem, h1, h2, h3, rfl⟩, by rw [h4]⟩

/-- C4 amended witness: highlight 102 falls in the scan range of the
witness read with sequence base `G`, recorded as category 12. -/
theorem c4_highlight_record_iff_witness :
    pass2Read "zZ" false 0 gW4 1 "ZzH" "ACG" [102] selW4 = some recW4 ∧
    ((102, 12) ∈ recW4.hls ↔
      102 ∈ ([102] : List ℕ) ∧ beginIC gW4 false ≤ u32sub 102 gW4.startx ∧
      u32sub 102 gW4.startx < endI gW4 false ∧
      ctx_map "zZ" (strAt "ACG" (u32sub 102 gW4.startx)) = true ∧
      12 = nt_to_idx (strAt "ACG" (u32sub 102 gW4.startx))) :=
  ⟨rfl, c4_highlight_record_iff "zZ" false 0 gW4 1 "ZzH" "ACG" [102] selW4 recW4 rfl 102 12⟩

/-- One item's hash step is the byte fold over its five bytes. -/
theorem fnvStep_eq (h0 : ℕ) (pc : ℕ × Char) :
    fnvStep h0 pc = (posBytes pc.1 ++ [pc.2.toNat]).foldl fnv1 h0 := by
  rw [List.foldl_append]
  rfl

/-- Folding the per-item hash step equals folding the per-byte update
over the flattened byte sequence. -/
theorem foldl_fnvStep_eq (l : List (ℕ × Char)) (h0 : ℕ) :
    l.foldl fnvStep h0 = (bytesOfCalls l).foldl fnv1 h0 := by
  induction l generalizing h0 with
  | nil => simp [bytesOfCalls]
  | cons pc l ih =>
    rw [List.foldl_cons, ih (fnvStep h0 pc)]
    rw [show bytesOfCalls (pc :: l) = (posBytes pc.1 ++ [pc.2.toNat]) ++ bytesOfCalls l from
      by rw [bytesOfCalls, List.flatMap_cons, bytesOfCalls]]
    rw [List.foldl_append, fnvStep_eq]

/-- The rendered hash string always has 16 characters. -/
theorem toHex64_length (n : ℕ) : (toHex64 n).length = 16 := by
  simp [toHex64, String.length]

/-- C3 counterexample: the pattern emitted for a read at position 200
with the single selected call `Z` hashes the bytes `[200, 0, 0, 0, 90]`,
and its `hash_id` differs from the rendering of the plain byte-wise
FNV-1a accumulation the claim describes, because the implementation xors
sign-extended `char` values (byte `200 ≥ 0x80` flips the upper bits). -/
theorem c3_hash_counterexample :
    ((pass2Read "zZ" false 0 gC3 1 "Z" "A" [] selC3).map fun r => r.pattern) =
      some (toHex64 (([200, 0, 0, 0, 90] : List ℕ).foldl fnv1 offset_basis)) ∧
    callsOf "zZ" false 0 gC3 1 "Z" selC3 = [(200, 'Z')] ∧
    posBytes 200 ++ [('Z').toNat] = [200, 0, 0, 0, 90] ∧
    toHex64 (([200, 0, 0, 0, 90] : List ℕ).foldl fnv1 offset_basis) ≠
      toHex64 (([200, 0, 0, 0, 90] : List ℕ).foldl fnv1Spec offset_basis) := by
  refine ⟨by decide, by decide, by decide, by decide⟩

/-- C3 amended: for every emitted pattern, `hash_id` is the uppercase,
zero-padded 16-hex-digit rendering of the 64-bit hash that starts at the
FNV-1a offset basis 14695981039346656037 and, for each selected-position
call in ascending scan order and then each recorded highlight in
highlight-list order, folds `hash = ((hash xor sext(byte)) *
1099511628211) mod 2^64` over the little-endian raw bytes of the 32-bit
position followed by the single character byte — where `sext`
sign-extends the byte from 8 to 64 bits (bytes below 0x80 are unchanged;
bytes ≥ 0x80, which occur in position integers, also flip the upper 56
bits), reflecting that the implementation xors signed `char` values. -/
theorem c3_hash_rendering (ctx : String) (clip : Bool) (ro : ℕ) (g : ReadGeom)
    (strandx : ℤ) (xm sq : String) (hl : List ℕ) (sel : ℕ → Bool) (rec : PatternRec)
    (h : pass2Read ctx clip ro g strandx xm sq hl sel = some rec) :
    rec.pattern = toHex64
      ((bytesOfCalls (callsOf ctx clip ro g strandx xm sel) ++
        bytesOfCalls (hlCallsOf ctx clip g hl sq)).foldl fnv1 offset_basis) ∧
    rec.pattern.length = 16 := by
  obtain ⟨-, hrec⟩ := pass2Read_eq_some h
  subst hrec
  refine ⟨?_, toHex64_length _⟩
  show toHex64 ((hlCallsOf ctx clip g hl sq).foldl fnvStep
      ((callsOf ctx clip ro g strandx xm sel).foldl fnvStep offset_basis)) = _
  rw [List.foldl_append, foldl_fnvStep_eq, foldl_fnvStep_eq]

/-- C3 amended witness: the concrete emitted record of the `gW3` input
matches the byte-sequence rendering. -/
theorem c3_hash_rendering_witness :
    pass2Read "zZ" false 0 gW3 1 "ZzH" "ACG" [102] selW3 = some recW3 ∧
    (recW3.pattern = toHex64
        ((bytesOfCalls (callsOf "zZ" false 0 gW3 1 "ZzH" selW3) ++
          bytesOfCalls (hlCallsOf "zZ" false gW3 [102] "ACG")).foldl fnv1 offset_basis) ∧
      recW3.pattern.length = 16) :=
  ⟨rfl, c3_hash_rendering "zZ" false 0 gW3 1 "ZzH" "ACG" [102] selW3 recW3 rfl⟩

/-- C5 counterexample: the read `[100,109]` against target `[105,107]`
qualifies with overlap 3, but its clipped scan range
`[over_start - start, overlap) = [5, 3)` is EMPTY, while the intersected
span covers indices 5..7 — so the clipped scan range is not "exactly the
intersected span" as the claim states. -/
theorem c5_clip_counterexample :
    (1 : ℤ) ≤ overlapS g5 ∧ overlapS g5 = 3 ∧
    scanIdx g5 true = [] ∧
    List.range' (overStart g5 - g5.startx) (overEnd g5 - overStart g5 + 1) = [5, 6, 7] := by
  refine ⟨by decide, by decide, by decide, by decide⟩

/-- C5 amended: a read qualifies iff
`min(read_end, target_end) - max(read_start, target_start) + 1 ≥
min_overlap` with `read_end = start + len - 1` (the signed overlap is
exactly that quantity); when `clip` is true the scan range is
`[overlap_start - start, overlap)`, which coincides with the intersected
span exactly when the read starts at or after the target start (when the
read starts before it, the upper bound `overlap` is measured from
`overlap_start`, truncating or emptying the range); when `clip` is false
the scan range is `[0, len)`. -/
theorem c5_overlap_filter (g : ReadGeom)
    (h1 : 1 ≤ g.startx) (h2 : g.startx < 2147483648) (h3 : g.startx + g.len ≤ 2147483648)
    (h4 : g.tstart < 2147483648) (h5 : g.tend < 2147483648) :
    endX g = g.startx + g.len - 1 ∧
    overlapS g =
      min ((g.startx : ℤ) + g.len - 1) g.tend - max (g.startx : ℤ) g.tstart + 1 ∧
    scanIdx g true = List.range' (overStart g - g.startx) (overlapU g - (overStart g - g.startx)) ∧
    (g.tstart ≤ g.startx → beginI g = 0 ∧ scanIdx g true = List.range' 0 (overlapU g)) ∧
    scanIdx g false = List.range g.len := by
  have hex : endX g = g.startx + g.len - 1 := by
    rw [endX]
    exact u32sub_of_le (by omega) (by simp only [u32]; omega)
  refine ⟨hex, ?_, ?_, ?_, ?_⟩
  · rw [overlapS, overlapU, overEnd, overStart, hex, toS32]
    simp only [u32sub, u32]
    split <;> omega
  · simp [scanIdx, endI, beginI]
  · intro h
    have hb : beginI g = 0 := by
      rw [beginI, overStart]
      omega
    refine ⟨hb, ?_⟩
    simp only [scanIdx, endI, if_true]
    rw [hb, Nat.sub_zero]
  · simp [scanIdx, endI, List.range_eq_range']

/-- C5 amended witness: read `[100,102]` on target `[100,102]`. -/
theorem c5_overlap_filter_witness :
    (1 ≤ gW5.startx ∧ gW5.startx < 2147483648 ∧ gW5.startx + gW5.len ≤ 2147483648 ∧
      gW5.tstart < 2147483648 ∧ gW5.tend < 2147483648) ∧
    (endX gW5 = gW5.startx + gW5.len - 1 ∧
      overlapS gW5 =
        min ((gW5.startx : ℤ) + gW5.len - 1) gW5.tend - max (gW5.startx : ℤ) gW5.tstart + 1 ∧
      scanIdx gW5 true =
        List.range' (overStart gW5 - gW5.startx) (overlapU gW5 - (overStart gW5 - gW5.startx)) ∧
      (gW5.tstart ≤ gW5.startx → beginI gW5 = 0 ∧ scanIdx gW5 true = List.range' 0 (overlapU gW5)) ∧
      scanIdx gW5 false = List.range gW5.len) :=
  ⟨⟨by decide, by decide, by decide, by decide, by decide⟩,
    c5_overlap_filter gW5 (by decide) (by decide) (by decide) (by decide) (by decide)⟩

end EpialleleR
